import Mathlib

set_option maxRecDepth 16384
set_option maxHeartbeats 4000000

/-!
Verification of the request-signing and canonical-resource core of the
oss-rust-sdk library, shallowly embedded in Lean.

The embedding follows `src/auth.rs` (the `Auth::oss_sign` implementation and
`get_oss_resource_str`), `src/oss.rs` (the `RESOURCES` allow-list,
`get_resources_str`, `get_params_str`, `host`, `build_request`),
`src/utils.rs` (`to_headers`) and `src/object.rs`
(`copy_object_from_object`).

Header maps (`reqwest::header::HeaderMap`) are modelled as association lists
of lowercase header names to string values; parameter maps
(`HashMap<S, Option<S>>`) as association lists in iteration order, so that
order-dependence of the Rust iteration can be quantified over explicitly.
Machine integers of the hash computations are modelled as `Nat` with explicit
reductions modulo 2^32.

The external crates the source calls (`sha1`, `hmac`, `base64`) are
implemented here concretely, following their standard definitions
(FIPS 180-4 SHA-1, RFC 2104 HMAC, RFC 4648 base64), so that every definition
is executable.
-/

/-! ## Bytes, words, UTF-8 -/

/-- UTF-8 encoding of one scalar value, as byte values (`str::as_bytes`). -/
def utf8EncodeCharNat (c : Char) : List Nat :=
  let n := c.toNat
  if n < 128 then [n]
  else if n < 2048 then [192 + n / 64, 128 + n % 64]
  else if n < 65536 then [224 + n / 4096, 128 + n / 64 % 64, 128 + n % 64]
  else [240 + n / 262144, 128 + n / 4096 % 64, 128 + n / 64 % 64, 128 + n % 64]

/-- The UTF-8 bytes of a string (Rust `String::as_bytes`). -/
def utf8Bytes (s : String) : List Nat :=
  (s.data.map utf8EncodeCharNat).flatten

/-- Truncation to a 32-bit word. -/
def w32 (n : Nat) : Nat := n % 4294967296

/-- Addition modulo 2^32. -/
def add32 (a b : Nat) : Nat := (a + b) % 4294967296

/-- Left rotation of a (masked) 32-bit word by `k < 32` bits. -/
def rotl32 (k n : Nat) : Nat := ((n <<< k) ||| (n >>> (32 - k))) % 4294967296

/-! ## SHA-1 (FIPS 180-4), over byte lists -/

/-- SHA-1 round function `f_t`. -/
def sha1F (t b c d : Nat) : Nat :=
  if t < 20 then (b &&& c) ||| ((4294967295 - b) &&& d)
  else if t < 40 then b ^^^ c ^^^ d
  else if t < 60 then (b &&& c) ||| (b &&& d) ||| (c &&& d)
  else b ^^^ c ^^^ d

/-- SHA-1 round constant `K_t`. -/
def sha1K (t : Nat) : Nat :=
  if t < 20 then 1518500249
  else if t < 40 then 1859775393
  else if t < 60 then 2400959708
  else 3395469782

/-- Big-endian 32-bit words from a list of bytes (4 bytes per word). -/
def words32BE : List Nat → List Nat
  | a :: b :: c :: d :: rest => (((a * 256 + b) * 256 + c) * 256 + d) :: words32BE rest
  | _ => []

/-- Big-endian 8-byte rendering of a (64-bit) natural number. -/
def bytesBE8 (n : Nat) : List Nat :=
  [n / 72057594037927936 % 256, n / 281474976710656 % 256,
   n / 1099511627776 % 256, n / 4294967296 % 256,
   n / 16777216 % 256, n / 65536 % 256, n / 256 % 256, n % 256]

/-- Big-endian 4-byte rendering of a 32-bit word. -/
def bytesBE4 (n : Nat) : List Nat :=
  [n / 16777216 % 256, n / 65536 % 256, n / 256 % 256, n % 256]

/-- Extend the 16-word message schedule, `k` more words. -/
def sha1Extend (w : List Nat) : Nat → List Nat
  | 0 => w
  | k + 1 =>
    let i := w.length
    let x := rotl32 1 (w.getD (i - 3) 0 ^^^ w.getD (i - 8) 0 ^^^
      w.getD (i - 14) 0 ^^^ w.getD (i - 16) 0)
    sha1Extend (w ++ [x]) k

/-- One SHA-1 round on the five-word working state. -/
def sha1Round (wt t : Nat) : Nat × Nat × Nat × Nat × Nat → Nat × Nat × Nat × Nat × Nat
  | (a, b, c, d, e) =>
    let tmp := (rotl32 5 a + sha1F t b c d + e + sha1K t + wt) % 4294967296
    (tmp, a, rotl32 30 b, c, d)

/-- Process one 64-byte block. -/
def sha1Compress (h : Nat × Nat × Nat × Nat × Nat) (block : List Nat) :
    Nat × Nat × Nat × Nat × Nat :=
  let w := sha1Extend (words32BE block) 64
  let r := (List.range 80).foldl (fun st t => sha1Round (w.getD t 0) t st) h
  (add32 h.1 r.1, add32 h.2.1 r.2.1, add32 h.2.2.1 r.2.2.1,
   add32 h.2.2.2.1 r.2.2.2.1, add32 h.2.2.2.2 r.2.2.2.2)

/-- Split a byte list into 64-byte chunks; the fuel argument (any bound on
the list length) keeps the recursion structural. -/
def chunks64Go : Nat → List Nat → List (List Nat)
  | _, [] => []
  | 0, _ :: _ => []
  | fuel + 1, c :: cs => (c :: cs).take 64 :: chunks64Go fuel ((c :: cs).drop 64)

/-- Split a byte list into 64-byte chunks. -/
def chunks64 (l : List Nat) : List (List Nat) := chunks64Go l.length l

/-- SHA-1 padding: `0x80`, zeros, 8-byte big-endian bit length. -/
def sha1Pad (msg : List Nat) : List Nat :=
  msg ++ 128 :: List.replicate ((119 - msg.length % 64) % 64) 0 ++ bytesBE8 (msg.length * 8)

/-- SHA-1 digest (20 bytes) of a byte list. -/
def sha1 (msg : List Nat) : List Nat :=
  let s := (chunks64 (sha1Pad msg)).foldl sha1Compress
    (1732584193, 4023233417, 2562383102, 271733878, 3285377520)
  bytesBE4 s.1 ++ bytesBE4 s.2.1 ++ bytesBE4 s.2.2.1 ++ bytesBE4 s.2.2.2.1 ++
    bytesBE4 s.2.2.2.2

/-! ## HMAC-SHA1 (RFC 2104), block size 64 -/

/-- HMAC-SHA1 of `msg` under `key` (the `hmac` crate's `Hmac<Sha1>`). -/
def hmacSha1 (key msg : List Nat) : List Nat :=
  let k0 := if 64 < key.length then sha1 key else key
  let k := k0 ++ List.replicate (64 - k0.length) 0
  sha1 (k.map (fun b => b ^^^ 92) ++ sha1 (k.map (fun b => b ^^^ 54) ++ msg))

/-! ## Base64 (RFC 4648), the `base64::encode` default alphabet -/

/-- The standard base64 alphabet. -/
def base64Table : List Char :=
  "ABCDEFGHIJKLMNOPQRSTUVWXYZabcdefghijklmnopqrstuvwxyz0123456789+/".data

/-- One base64 digit. -/
def b64Char (n : Nat) : Char := base64Table.getD n 'A'

/-- Base64 encoding with `=` padding of a byte list. -/
def base64encode : List Nat → String
  | [] => ""
  | [a] => String.mk [b64Char (a / 4), b64Char (a % 4 * 16), '=', '=']
  | [a, b] => String.mk [b64Char (a / 4), b64Char (a % 4 * 16 + b / 16),
      b64Char (b % 16 * 4), '=']
  | a :: b :: c :: rest =>
      String.mk [b64Char (a / 4), b64Char (a % 4 * 16 + b / 16),
        b64Char (b % 16 * 4 + c / 64), b64Char (c % 64)] ++ base64encode rest

/-! ## Plain string helpers (Rust `str` operations on byte content) -/

/-- Tests whether `pat` is a prefix of `s` (`str::starts_with`, on scalar values). -/
def isPrefixL (pat s : List Char) : Bool :=
  match pat, s with
  | [], _ => true
  | _ :: _, [] => false
  | a :: as, b :: bs => a.toNat == b.toNat && isPrefixL as bs

/-- Tests whether `pat` occurs somewhere in `s` (`str::contains`). -/
def containsL (pat : List Char) : List Char → Bool
  | [] => isPrefixL pat []
  | c :: cs => isPrefixL pat (c :: cs) || containsL pat cs

/-- Replace the first occurrence of `pat` by `repl` (`str::replacen(_, _, 1)`). -/
def replaceFirstL (pat repl : List Char) : List Char → List Char
  | [] => if isPrefixL pat [] then repl else []
  | c :: cs =>
      if isPrefixL pat (c :: cs) then repl ++ (c :: cs).drop pat.length
      else c :: replaceFirstL pat repl cs

/-- Rust `str::starts_with`. -/
def strStartsWith (s pat : String) : Bool := isPrefixL pat.data s.data

/-- Rust `str::contains`. -/
def strContains (s pat : String) : Bool := containsL pat.data s.data

/-- Rust `str::replacen(pat, repl, 1)`. -/
def strReplacen1 (s pat repl : String) : String := ⟨replaceFirstL pat.data repl.data s.data⟩

/-- Drop the first `n` characters of a string. -/
def strDrop (s : String) (n : Nat) : String := ⟨s.data.drop n⟩

/-- Byte-lexicographic comparison of strings as Rust's `str::cmp` orders
them (on UTF-8 strings, byte order and scalar-value order coincide). -/
def charListLe : List Char → List Char → Bool
  | [], _ => true
  | _ :: _, [] => false
  | a :: as, b :: bs =>
      if a.toNat < b.toNat then true
      else if b.toNat < a.toNat then false
      else charListLe as bs

/-- Comparison `a ≤ b` in Rust's string order. -/
def strLe (a b : String) : Bool := charListLe a.data b.data

/-! ## Sorting by key (Rust `Vec::sort_by` with `cmp` on the key strings)

Rust's `sort_by(|a, b| a.0.cmp(&b.0))` is a stable sort ascending in the
byte order of the key; `List.insertionSort` with the same total preorder is
also stable, so the two agree. -/

/-- The sort order used by `oss_sign` and `get_resources_str`/`get_params_str`:
compare the key strings. -/
def keyLe {β : Type} (a b : String × β) : Prop := strLe a.1 b.1 = true

instance {β : Type} : DecidableRel (keyLe (β := β)) :=
  fun a b => instDecidableEqBool (strLe a.1 b.1) true

/-- Stable sort of an association list by key (`sort_by` on the key). -/
def sortByKey {β : Type} (l : List (String × β)) : List (String × β) :=
  List.insertionSort keyLe l

/-! ## The signing core of `src/auth.rs` -/

/-- Lookup `HeaderMap::get`: the value stored under a (lowercase) header name.
`HeaderValue::to_str` is the identity here because values are modelled as
strings. -/
def getHeader (headers : List (String × String)) (name : String) : Option String :=
  (headers.find? fun p => p.1 == name).map Prod.snd

/-- Bytes `http::HeaderValue::to_str` can render: horizontal tab or
visible ASCII (32..126).  `HeaderValue::from_str` also accepts bytes at and
above 128, which `to_str` rejects. -/
def visibleAsciiChar (c : Char) : Bool :=
  c.toNat == 9 || (32 ≤ c.toNat && c.toNat < 127)

/-- The rendering `v.to_str().unwrap_or_default()` / `unwrap_or("")` of
auth.rs lines 38, 42, 46 and 59: the stored value itself when every
character is renderable, the empty string when `to_str` fails. -/
def headerValueToStr (v : String) : String :=
  if v.data.all visibleAsciiChar then v else ""

/-- The vendor headers collected by `oss_sign`: every header whose name
contains the substring `"x-oss-"` (auth.rs line 51). -/
def ossVendorHeaders (headers : List (String × String)) : List (String × String) :=
  headers.filter fun p => strContains p.1 "x-oss-"

/-- The `oss_headers_str` accumulation loop of auth.rs lines 54-61: the
vendor headers, sorted by name, each rendered as `name:value\n`. -/
def oss_headers_str (headers : List (String × String)) : String :=
  (sortByKey (ossVendorHeaders headers)).foldl
    (fun acc p => acc ++ (p.1 ++ ":" ++ headerValueToStr p.2 ++ "\n")) ""

/-- auth.rs lines 79-91: the canonical resource path. -/
def get_oss_resource_str (bucket object oss_resources : String) : String :=
  let r := if oss_resources ≠ "" then "?" ++ oss_resources else ""
  if bucket = "" then "/" ++ bucket ++ r
  else "/" ++ bucket ++ "/" ++ object ++ r

/-- The `sign_str` built by auth.rs lines 36-67: verb, Content-MD5 (the
base64 re-encoding of the raw header value), Content-Type, Date, the sorted
vendor-header block, then the canonical resource.  Header lookups use the
lowercase names reqwest's `HeaderMap` stores. -/
def string_to_sign (verb bucket object oss_resources : String)
    (headers : List (String × String)) : String :=
  let date := ((getHeader headers "date").map headerValueToStr).getD ""
  let content_type := ((getHeader headers "content-type").map headerValueToStr).getD ""
  let content_md5 := ((getHeader headers "content-md5").map
    fun v => base64encode (utf8Bytes (headerValueToStr v))).getD ""
  verb ++ "\n" ++ content_md5 ++ "\n" ++ content_type ++ "\n" ++ date ++ "\n" ++
    oss_headers_str headers ++ get_oss_resource_str bucket object oss_resources

/-- The signer `Auth::oss_sign` of auth.rs lines 26-76: HMAC-SHA1 of the signing string
under the secret key, base64-encoded, wrapped as `OSS key_id:signature`. -/
def oss_sign (verb key_id key_secret bucket object oss_resources : String)
    (headers : List (String × String)) : String :=
  let sign_str := string_to_sign verb bucket object oss_resources headers
  let sign_str_base64 := base64encode (hmacSha1 (utf8Bytes key_secret) (utf8Bytes sign_str))
  "OSS " ++ key_id ++ ":" ++ sign_str_base64

/-! ## The canonical resource / query encoding of `src/oss.rs` -/

/-- The `RESOURCES` allow-list of oss.rs lines 15-66, in source order
(50 entries; `"comp"` appears at positions 24 and 45). -/
def RESOURCES : List String :=
  ["acl", "uploads", "location", "cors", "logging", "website", "referer",
   "lifecycle", "delete", "append", "tagging", "objectMeta", "uploadId",
   "partNumber", "security-token", "position", "img", "style", "styleName",
   "replication", "replicationProgress", "replicationLocation", "cname",
   "bucketInfo", "comp", "qos", "live", "status", "vod", "startTime",
   "endTime", "symlink", "x-oss-process", "response-content-type",
   "response-content-language", "response-expires", "response-cache-control",
   "response-content-disposition", "response-content-encoding", "udf",
   "udfName", "udfImage", "udfId", "udfImageDesc", "udfApplication", "comp",
   "udfApplicationLog", "restore", "callback", "callback-var"]

/-- One serialized parameter: `k=v` for a valued parameter, `k` alone for a
presence-only parameter. -/
def paramEntry (k : String) (v : Option String) : String :=
  match v with
  | some vv => k ++ "=" ++ vv
  | none => k

/-- The accumulation loop shared by `get_resources_str` and
`get_params_str` (oss.rs lines 168-179 and 188-199): `&`-separated entries,
with the separator suppressed while the accumulator is still empty. -/
def renderParams (acc : String) : List (String × Option String) → String
  | [] => acc
  | (k, v) :: rest =>
      let acc2 := if acc = "" then acc else acc ++ "&"
      renderParams (acc2 ++ paramEntry k v) rest

/-- The method `OSS::get_resources_str` (oss.rs lines 159-180): keep the allow-listed
parameters, sort by key, serialize. -/
def get_resources_str (params : List (String × Option String)) : String :=
  renderParams "" (sortByKey (params.filter fun p => RESOURCES.contains p.1))

/-- The method `OSS::get_params_str` (oss.rs lines 182-200): sort all parameters by
key, serialize. -/
def get_params_str (params : List (String × Option String)) : String :=
  renderParams "" (sortByKey params)

/-- The string-typed fields of the `OSS` client struct (oss.rs lines 68-76);
the HTTP transport handle plays no part in signing and is omitted. -/
structure OSS where
  key_id : String
  key_secret : String
  endpoint : String
  bucket : String

/-- The method `OSS::host` (oss.rs lines 134-152). -/
def host (cfg : OSS) (bucket object resources_str : String) : String :=
  if strStartsWith cfg.endpoint "https" then
    "https://" ++ bucket ++ "." ++ strReplacen1 cfg.endpoint "https://" "" ++ "/" ++
      object ++ "?" ++ resources_str
  else
    "http://" ++ bucket ++ "." ++ strReplacen1 cfg.endpoint "http://" "" ++ "/" ++
      object ++ "?" ++ resources_str

/-! ## Header construction (`src/utils.rs`) and request building -/

/-- The characters `http::HeaderName::from_bytes` accepts: lowercase
letters, digits, the listed specials, and uppercase letters (which it
lowercases). -/
def validHeaderNameChar (c : Char) : Bool :=
  (97 ≤ c.toNat && c.toNat ≤ 122) || (48 ≤ c.toNat && c.toNat ≤ 57) ||
  (65 ≤ c.toNat && c.toNat ≤ 90) || "!#$%&'*+-.^_`|~".data.contains c

/-- Name validation `HeaderName::from_bytes`: `none` on the empty name or any invalid
character, otherwise the lowercased name. -/
def headerNameFromBytes (s : String) : Option String :=
  if s = "" then none
  else if s.data.all validHeaderNameChar then some ⟨s.data.map Char.toLower⟩
  else none

/-- A byte `HeaderValue::from_str` accepts: horizontal tab, or anything
that is at least 32 and not DEL.  Characters above 127 encode to UTF-8
bytes above 127, all of which the byte-level check accepts, so the check is
equivalently stated on characters. -/
def validHeaderValueChar (c : Char) : Bool :=
  c.toNat == 9 || (32 ≤ c.toNat && c.toNat != 127)

/-- Value parsing, `"...".parse::<HeaderValue>()`: the value itself when every character
is acceptable, `none` otherwise. -/
def parseHeaderValue (s : String) : Option String :=
  if s.data.all validHeaderValueChar then some s else none

/-- Insertion `HeaderMap::insert`: replace the value under `k` in place if the name
is present, append otherwise. -/
def hmInsert (hs : List (String × String)) (k v : String) : List (String × String) :=
  if hs.any fun p => p.1 == k then
    hs.map fun p => if p.1 == k then (k, v) else p
  else hs ++ [(k, v)]

/-- The loop of `to_headers` (utils.rs lines 18-27): convert a caller map (in
iteration order) to a header map, failing on the first invalid name or
value. -/
def to_headersAux (acc : List (String × String)) :
    List (String × String) → Except String (List (String × String))
  | [] => .ok acc
  | (k, v) :: rest =>
      match headerNameFromBytes k, parseHeaderValue v with
      | some k2, some v2 => to_headersAux (hmInsert acc k2 v2) rest
      | _, _ => .error "invalid header name or value"

/-- The function `to_headers` (utils.rs lines 18-27). -/
def to_headers (l : List (String × String)) : Except String (List (String × String)) :=
  to_headersAux [] l

/-- The enum `RequestType` (oss.rs lines 246-262). -/
inductive RequestType where
  | Get
  | Put
  | Delete
  | Head

/-- The method `RequestType::as_str`. -/
def RequestType.asStr : RequestType → String
  | .Get => "GET"
  | .Put => "PUT"
  | .Delete => "DELETE"
  | .Head => "HEAD"

/-- The resources string a `build_request` call signs over. -/
def resourcesStrOpt (resources : Option (List (String × Option String))) : String :=
  match resources with
  | some r => get_resources_str r
  | none => ""

/-- The query string a `build_request` call puts in the URL. -/
def paramsStrOpt (resources : Option (List (String × Option String))) : String :=
  match resources with
  | some r => get_params_str r
  | none => ""

/-- The method `OSS::build_request` (oss.rs lines 203-243).  The wall-clock read
`self.date()` is passed in as the explicit `date` argument; the two
`parse()?` calls on the date and authorization values are modelled by
`parseHeaderValue`. -/
def build_request (cfg : OSS) (date : String) (req_type : RequestType)
    (object_name : String) (headers : Option (List (String × String)))
    (resources : Option (List (String × Option String))) :
    Except String (String × List (String × String)) :=
  let resources_str := resourcesStrOpt resources
  let params_str := paramsStrOpt resources
  let hostStr := host cfg cfg.bucket object_name params_str
  match (match headers with
    | some h => to_headers h
    | none => .ok []) with
  | .error e => .error e
  | .ok hs =>
    match parseHeaderValue date with
    | none => .error "invalid date value"
    | some dv =>
      let hs2 := hmInsert hs "date" dv
      let authorization := oss_sign req_type.asStr cfg.key_id cfg.key_secret cfg.bucket
        object_name resources_str hs2
      match parseHeaderValue authorization with
      | none => .error "invalid authorization value"
      | some av => .ok (hostStr, hmInsert hs2 "authorization" av)

/-- The request-construction part of `ObjectAPI::copy_object_from_object`
(object.rs lines 376-406): build the signed request, then insert the
`x-oss-copy-source` header; the HTTP send that follows is outside the
model. -/
def copy_object_from_object (cfg : OSS) (date src object_name : String)
    (headers : Option (List (String × String)))
    (resources : Option (List (String × Option String))) :
    Except String (String × List (String × String)) :=
  match build_request cfg date .Put object_name headers resources with
  | .error e => .error e
  | .ok r =>
    match parseHeaderValue src with
    | none => .error "invalid copy source value"
    | some sv => .ok (r.1, hmInsert r.2 "x-oss-copy-source" sv)

/-- Success test `Except.isOk`, to state success of a request build without naming its
payload. -/
def isOkE {ε α : Type} : Except ε α → Bool
  | .ok _ => true
  | .error _ => false

/-- The authorization header of a built request, if the build succeeded. -/
def authOf (r : Except String (String × List (String × String))) : Option String :=
  match r with
  | .ok p => getHeader p.2 "authorization"
  | .error _ => none

/-! ## Helper lemmas: strings and folds -/

/-- Characters with equal scalar values are equal. -/
theorem charEqOfToNat {a b : Char} (h : a.toNat = b.toNat) : a = b :=
  Char.eq_of_val_eq (UInt32.ext h)

/-- Appending strings appends their character data. -/
theorem strDataAppend (a b : String) : (a ++ b).data = a.data ++ b.data := by
  cases a
  cases b
  rfl

/-- A left fold of string concatenation factors its accumulator out. -/
theorem strFoldlAppend (l : List String) (acc : String) :
    l.foldl (fun r s => r ++ s) acc = acc ++ l.foldl (fun r s => r ++ s) "" := by
  induction l generalizing acc with
  | nil => simp only [List.foldl_nil]; exact (String.append_empty acc).symm
  | cons s rest ih =>
      simp only [List.foldl_cons]
      rw [ih (acc ++ s), ih ("" ++ s), String.empty_append, String.append_assoc]

/-- Joining strings distributes over `cons`. -/
theorem strJoinCons (s : String) (l : List String) :
    String.join (s :: l) = s ++ String.join l := by
  simp only [String.join, List.foldl_cons]
  rw [strFoldlAppend l ("" ++ s), String.empty_append]

/-- The vendor-header accumulation loop renders the joined lines. -/
theorem foldlRenderEq (f : String × String → String) (l : List (String × String))
    (acc : String) :
    l.foldl (fun acc p => acc ++ f p) acc = acc ++ String.join (l.map f) := by
  induction l generalizing acc with
  | nil => simp only [List.foldl_nil, List.map_nil, String.join]
           exact (String.append_empty acc).symm
  | cons p rest ih =>
      simp only [List.foldl_cons, List.map_cons]
      rw [ih, strJoinCons]
      apply String.ext
      simp [strDataAppend]

/-- The parameter loop splits across an append of entry lists. -/
theorem renderParamsAppend (l1 l2 : List (String × Option String)) (acc : String) :
    renderParams acc (l1 ++ l2) = renderParams (renderParams acc l1) l2 := by
  induction l1 generalizing acc with
  | nil => rfl
  | cons p rest ih =>
      cases p
      simp only [List.cons_append, renderParams, List.append_eq]
      rw [← ih]

/-- The parameter loop only ever extends its accumulator. -/
theorem renderParamsExtends (l : List (String × Option String)) (acc : String) :
    ∃ t, renderParams acc l = acc ++ t := by
  induction l generalizing acc with
  | nil => exact ⟨"", (String.append_empty acc).symm⟩
  | cons p rest ih =>
      cases p with
      | mk k v =>
          simp only [renderParams]
          by_cases hacc : acc = ""
          · obtain ⟨t, ht⟩ := ih ((if acc = "" then acc else acc ++ "&") ++ paramEntry k v)
            refine ⟨paramEntry k v ++ t, ?_⟩
            rw [ht, if_pos hacc, hacc]
            apply String.ext
            simp [strDataAppend]
          · obtain ⟨t, ht⟩ := ih ((if acc = "" then acc else acc ++ "&") ++ paramEntry k v)
            refine ⟨"&" ++ paramEntry k v ++ t, ?_⟩
            rw [ht, if_neg hacc]
            apply String.ext
            simp [strDataAppend]

/-- A key present among the rendered entries occurs verbatim in the
rendered string. -/
theorem renderParamsMemSubstr (l : List (String × Option String)) (k : String)
    (v : Option String) (hm : (k, v) ∈ l) :
    ∃ s1 s2, renderParams "" l = s1 ++ (k ++ s2) := by
  obtain ⟨pre, post, hsplit⟩ := List.append_of_mem hm
  subst hsplit
  rw [renderParamsAppend pre ((k, v) :: post) ""]
  simp only [renderParams]
  obtain ⟨t, ht⟩ :=
    renderParamsExtends post ((if renderParams "" pre = "" then renderParams "" pre
      else renderParams "" pre ++ "&") ++ paramEntry k v)
  rw [ht]
  refine ⟨(if renderParams "" pre = "" then renderParams "" pre
      else renderParams "" pre ++ "&"), ?_, ?_⟩
  case _ =>
    cases v with
    | none => exact t
    | some vv => exact "=" ++ vv ++ t
  cases v with
  | none =>
      simp only [paramEntry]
      apply String.ext
      simp [strDataAppend]
  | some vv =>
      simp only [paramEntry]
      apply String.ext
      simp [strDataAppend]

/-! ## Helper lemmas: the key order and sorting -/

/-- The byte order is total. -/
theorem charListLeTotal (a b : List Char) :
    charListLe a b = true ∨ charListLe b a = true := by
  induction a generalizing b with
  | nil => exact Or.inl rfl
  | cons x xs ih =>
      cases b with
      | nil => exact Or.inr rfl
      | cons y ys =>
          simp only [charListLe]
          rcases Nat.lt_trichotomy x.toNat y.toNat with hlt | heq | hgt
          · left
            simp [hlt]
          · rcases ih ys with hl | hr
            · left
              simp [heq, hl]
            · right
              simp [heq, hr]
          · right
            simp [hgt]

/-- The byte order is transitive. -/
theorem charListLeTrans (a b c : List Char) (hab : charListLe a b = true)
    (hbc : charListLe b c = true) : charListLe a c = true := by
  induction a generalizing b c with
  | nil => rfl
  | cons x xs ih =>
      cases b with
      | nil => simp [charListLe] at hab
      | cons y ys =>
          cases c with
          | nil => simp [charListLe] at hbc
          | cons z zs =>
              simp only [charListLe] at hab hbc ⊢
              by_cases hxy : x.toNat < y.toNat
              · by_cases hyz : y.toNat < z.toNat
                · simp [Nat.lt_trans hxy hyz]
                · simp only [if_pos hxy] at hab
                  simp only [if_neg hyz] at hbc
                  by_cases hzy : z.toNat < y.toNat
                  · simp [hzy] at hbc
                  · have : x.toNat < z.toNat := by omega
                    simp [this]
              · simp only [if_neg hxy] at hab
                by_cases hyx : y.toNat < x.toNat
                · simp [hyx] at hab
                · by_cases hyz : y.toNat < z.toNat
                  · have : x.toNat < z.toNat := by omega
                    simp [this]
                  · simp only [if_neg hyz] at hbc
                    by_cases hzy : z.toNat < y.toNat
                    · simp [hzy] at hbc
                    · simp only [if_neg hyx] at hab
                      simp only [if_neg hzy] at hbc
                      have hxz : ¬ x.toNat < z.toNat := by omega
                      have hzx : ¬ z.toNat < x.toNat := by omega
                      simp only [if_neg hxz, if_neg hzx]
                      exact ih ys zs hab hbc

/-- The byte order is antisymmetric. -/
theorem charListLeAntisymm (a b : List Char) (hab : charListLe a b = true)
    (hba : charListLe b a = true) : a = b := by
  induction a generalizing b with
  | nil =>
      cases b with
      | nil => rfl
      | cons y ys => simp [charListLe] at hba
  | cons x xs ih =>
      cases b with
      | nil => simp [charListLe] at hab
      | cons y ys =>
          simp only [charListLe] at hab hba
          by_cases hxy : x.toNat < y.toNat
          · have : ¬ y.toNat < x.toNat := by omega
            simp [this, hxy] at hba
          · by_cases hyx : y.toNat < x.toNat
            · simp [hxy, hyx] at hab
            · simp only [if_neg hxy, if_neg hyx] at hab hba
              have hx : x = y := charEqOfToNat (by omega)
              rw [hx, ih ys hab hba]

instance {β : Type} : IsTotal (String × β) keyLe :=
  ⟨fun a b => charListLeTotal a.1.data b.1.data⟩

instance {β : Type} : IsTrans (String × β) keyLe :=
  ⟨fun a b c => charListLeTrans a.1.data b.1.data c.1.data⟩

/-- The strict key order used to identify sorted lists with distinct keys. -/
def keyLt {β : Type} (a b : String × β) : Prop := keyLe a b ∧ a.1 ≠ b.1

instance {β : Type} : IsAntisymm (String × β) keyLt :=
  ⟨fun a b hab hba => absurd
    (String.ext (charListLeAntisymm a.1.data b.1.data hab.1 hba.1)) hab.2⟩

/-- The sort emits a permutation of its input. -/
theorem sortByKeyPerm {β : Type} (l : List (String × β)) : (sortByKey l).Perm l :=
  List.perm_insertionSort keyLe l

/-- The sort emits a list sorted by key. -/
theorem sortByKeySorted {β : Type} (l : List (String × β)) :
    (sortByKey l).Pairwise keyLe :=
  List.sorted_insertionSort keyLe l

/-- Two association lists with the same entries and pairwise-distinct keys
sort identically: insertion order is irrelevant. -/
theorem sortByKeyEqOfPerm {β : Type} (l1 l2 : List (String × β)) (hp : l1.Perm l2)
    (hn : l1.Pairwise fun a b => a.1 ≠ b.1) : sortByKey l1 = sortByKey l2 := by
  have hperm : (sortByKey l1).Perm (sortByKey l2) :=
    (sortByKeyPerm l1).trans (hp.trans (sortByKeyPerm l2).symm)
  have hsym : ∀ {x y : String × β}, x.1 ≠ y.1 → y.1 ≠ x.1 := fun h => h.symm
  have hn1 : (sortByKey l1).Pairwise fun a b => a.1 ≠ b.1 :=
    (List.Perm.pairwise_iff hsym (sortByKeyPerm l1)).mpr hn
  have hn2 : (sortByKey l2).Pairwise fun a b => a.1 ≠ b.1 :=
    (List.Perm.pairwise_iff hsym hperm).mp hn1
  have hs1 : (sortByKey l1).Pairwise keyLt :=
    ((sortByKeySorted l1).and hn1).imp fun h => ⟨h.1, h.2⟩
  have hs2 : (sortByKey l2).Pairwise keyLt :=
    ((sortByKeySorted l2).and hn2).imp fun h => ⟨h.1, h.2⟩
  exact List.eq_of_perm_of_sorted hperm hs1 hs2

/-! ## Helper lemmas: header maps -/

/-- Lookup in the in-place-updated list: the stored value becomes `v`. -/
theorem findMapUpd (l : List (String × String)) (k v : String) :
    List.find? (fun p => p.1 == k) (l.map fun p => if p.1 == k then (k, v) else p) =
      (List.find? (fun p => p.1 == k) l).map fun _ => (k, v) := by
  induction l with
  | nil => rfl
  | cons p rest ih =>
      simp only [List.map_cons]
      by_cases hpk : (p.1 == k) = true
      · rw [if_pos hpk]
        simp only [List.find?, hpk]
        simp
      · have hpkf : (p.1 == k) = false := Bool.eq_false_iff.mpr hpk
        rw [if_neg hpk]
        simp only [List.find?, hpkf, ih]

/-- Lookup of a different name passes through the in-place update. -/
theorem findMapUpdNe (l : List (String × String)) (k v k2 : String) (hne : k2 ≠ k) :
    List.find? (fun p => p.1 == k2) (l.map fun p => if p.1 == k then (k, v) else p) =
      List.find? (fun p => p.1 == k2) l := by
  induction l with
  | nil => rfl
  | cons p rest ih =>
      simp only [List.map_cons]
      by_cases hpk : (p.1 == k) = true
      · have hp : p.1 = k := by simpa using hpk
        have h1 : ((k, v).1 == k2) = false :=
          beq_eq_false_iff_ne.mpr fun hc => hne hc.symm
        have h2 : (p.1 == k2) = false :=
          beq_eq_false_iff_ne.mpr fun hc => hne (hp ▸ hc).symm
        rw [if_pos hpk]
        simp only [List.find?, h1, h2, ih]
      · rw [if_neg hpk]
        by_cases hpk2 : (p.1 == k2) = true
        · simp only [List.find?, hpk2]
        · have hpk2f : (p.1 == k2) = false := Bool.eq_false_iff.mpr hpk2
          simp only [List.find?, hpk2f, ih]

/-- Inserting writes the inserted value under its name. -/
theorem getHeaderHmInsertSelf (l : List (String × String)) (k v : String) :
    getHeader (hmInsert l k v) k = some v := by
  unfold hmInsert getHeader
  by_cases hany : (l.any fun p => p.1 == k) = true
  · rw [if_pos hany, findMapUpd]
    obtain ⟨p, hp, hbeq⟩ := List.any_eq_true.mp hany
    cases hfind : l.find? (fun p => p.1 == k) with
    | none =>
        rw [List.find?_eq_none] at hfind
        exact absurd hbeq (hfind p hp)
    | some q => rfl
  · rw [if_neg hany]
    have hnone : l.find? (fun p => p.1 == k) = none := by
      rw [List.find?_eq_none]
      intro p hp hbeq
      exact hany (List.any_eq_true.mpr ⟨p, hp, hbeq⟩)
    rw [List.find?_append, hnone]
    simp [List.find?]

/-- Inserting leaves every other name unchanged. -/
theorem getHeaderHmInsertNe (l : List (String × String)) (k v k2 : String)
    (hne : k2 ≠ k) : getHeader (hmInsert l k v) k2 = getHeader l k2 := by
  unfold hmInsert getHeader
  by_cases hany : (l.any fun p => p.1 == k) = true
  · rw [if_pos hany, findMapUpdNe l k v k2 hne]
  · rw [if_neg hany]
    have h1 : ((k, v).1 == k2) = false :=
      beq_eq_false_iff_ne.mpr fun hc => hne hc.symm
    rw [List.find?_append]
    have hsingle : List.find? (fun p => p.1 == k2) [(k, v)] = none := by
      simp only [List.find?, h1]
    rw [hsingle]
    cases l.find? (fun p => p.1 == k2) <;> rfl

/-- Every entry of `hmInsert l k v` is an entry of `l` or the pair
`(k, v)` itself. -/
theorem hmInsertMem (l : List (String × String)) (k v : String)
    (q : String × String) (hq : q ∈ hmInsert l k v) : q ∈ l ∨ q = (k, v) := by
  unfold hmInsert at hq
  by_cases hany : (l.any fun p => p.1 == k) = true
  · rw [if_pos hany] at hq
    obtain ⟨p, hp, hpq⟩ := List.mem_map.mp hq
    by_cases hpk : (p.1 == k) = true
    · right
      rw [if_pos hpk] at hpq
      exact hpq.symm
    · left
      rw [if_neg hpk] at hpq
      exact hpq ▸ hp
  · rw [if_neg hany] at hq
    rcases List.mem_append.mp hq with h | h
    · exact Or.inl h
    · exact Or.inr (List.mem_singleton.mp h)

/-- With pairwise-distinct names, membership determines the lookup. -/
theorem getHeaderOfMem (l : List (String × String)) (n v : String)
    (hn : l.Pairwise fun a b => a.1 ≠ b.1) (hm : (n, v) ∈ l) :
    getHeader l n = some v := by
  induction l with
  | nil => simp at hm
  | cons p rest ih =>
      rcases List.mem_cons.mp hm with hh | ht
      · unfold getHeader
        have hbeq : (p.1 == n) = true := by rw [← hh]; simp
        simp only [List.find?, hbeq, ← hh, beq_self_eq_true, Option.map_some]
        rfl
      · by_cases hpn : (p.1 == n) = true
        · have : p.1 ≠ (n, v).1 := (List.pairwise_cons.mp hn).1 (n, v) ht
          exact absurd (by simpa using hpn) this
        · have hpnf : (p.1 == n) = false := Bool.eq_false_iff.mpr hpn
          unfold getHeader
          simp only [List.find?, hpnf]
          exact ih (List.pairwise_cons.mp hn).2 ht

/-- With pairwise-distinct names, lookups are invariant under permutation
of the header map. -/
theorem getHeaderEqOfPerm (h1 h2 : List (String × String)) (hp : h1.Perm h2)
    (hn : h1.Pairwise fun a b => a.1 ≠ b.1) (n : String) :
    getHeader h1 n = getHeader h2 n := by
  have hn2 : h2.Pairwise fun a b => a.1 ≠ b.1 :=
    (List.Perm.pairwise_iff (fun h => h.symm) hp).mp hn
  cases hh : getHeader h1 n with
  | some v =>
      obtain ⟨q, hfind, hmap⟩ := Option.map_eq_some'.mp hh
      have hqn : q.1 = n := by simpa using List.find?_some hfind
      have hqm : q ∈ h2 := hp.mem_iff.mp (List.mem_of_find?_eq_some hfind)
      have hq : (n, v) ∈ h2 := by
        have hqe : q = (n, v) := by
          cases q
          simp only [Prod.mk.injEq]
          exact ⟨hqn, hmap⟩
        exact hqe ▸ hqm
      exact (getHeaderOfMem h2 n v hn2 hq).symm
  | none =>
      symm
      unfold getHeader at hh ⊢
      rw [Option.map_eq_none'] at hh ⊢
      rw [List.find?_eq_none] at hh ⊢
      intro p hp2
      exact hh p (hp.mem_iff.mpr hp2)

/-! ## Helper lemmas: prefixes and replacement -/

/-- Prefix testing is taking. -/
theorem isPrefixTakeIff (p s : List Char) :
    isPrefixL p s = true ↔ s.take p.length = p := by
  induction p generalizing s with
  | nil => simp [isPrefixL]
  | cons a as ih =>
      cases s with
      | nil => simp [isPrefixL]
      | cons b bs =>
          simp only [isPrefixL, List.length_cons, List.take_succ_cons,
            Bool.and_eq_true, beq_iff_eq, List.cons.injEq]
          constructor
          · rintro ⟨h1, h2⟩
            exact ⟨(charEqOfToNat h1).symm, (ih bs).mp h2⟩
          · rintro ⟨h1, h2⟩
            exact ⟨congrArg Char.toNat h1.symm, (ih bs).mpr h2⟩

/-- A prefix is never longer than its host. -/
theorem isPrefixLength (p s : List Char) (h : isPrefixL p s = true) :
    p.length ≤ s.length := by
  have := (isPrefixTakeIff p s).mp h
  have hlen := congrArg List.length this
  simp only [List.length_take] at hlen
  omega

/-- A prefix of a prefix is a prefix. -/
theorem isPrefixTrans (p2 p1 s : List Char) (h2 : isPrefixL p2 p1 = true)
    (h1 : isPrefixL p1 s = true) : isPrefixL p2 s = true := by
  rw [isPrefixTakeIff] at h1 h2 ⊢
  have hle : p2.length ≤ p1.length := by
    have := isPrefixLength p2 p1 (by rw [isPrefixTakeIff]; exact h2)
    omega
  calc s.take p2.length = (s.take p1.length).take p2.length := by
        rw [List.take_take, Nat.min_eq_left hle]
    _ = p1.take p2.length := by rw [h1]
    _ = p2 := h2

/-- Replacing the first occurrence of a pattern that sits at the front
strips exactly that prefix. -/
theorem replaceFirstAtFront (p r s : List Char) (h : isPrefixL p s = true) :
    replaceFirstL p r s = r ++ s.drop p.length := by
  cases s with
  | nil =>
      cases p with
      | nil => simp [replaceFirstL, isPrefixL]
      | cons a as => simp [isPrefixL] at h
  | cons c cs => simp [replaceFirstL, h]

/-- Replacing a pattern that never occurs is the identity. -/
theorem replaceFirstOfNotContains (p r s : List Char) (h : containsL p s = false) :
    replaceFirstL p r s = s := by
  induction s with
  | nil =>
      simp only [containsL] at h
      simp [replaceFirstL, h]
  | cons c cs ih =>
      simp only [containsL, Bool.or_eq_false_iff] at h
      simp [replaceFirstL, h.1, ih h.2]

/-- Replacing a pattern that occurs somewhere removes one occurrence of
it: the host splits around the pattern and the replacement substitutes the
replacement list at that split. -/
theorem replaceFirstSplit (pat repl s : List Char) (h : containsL pat s = true) :
    ∃ pre post, s = pre ++ pat ++ post ∧
      replaceFirstL pat repl s = pre ++ repl ++ post := by
  induction s with
  | nil =>
      cases pat with
      | nil => exact ⟨[], [], rfl, by simp [replaceFirstL, isPrefixL]⟩
      | cons a as => simp [containsL, isPrefixL] at h
  | cons c cs ih =>
      by_cases hp : isPrefixL pat (c :: cs) = true
      · refine ⟨[], (c :: cs).drop pat.length, ?_, ?_⟩
        · have htake := (isPrefixTakeIff pat (c :: cs)).mp hp
          conv_lhs => rw [← List.take_append_drop pat.length (c :: cs)]
          rw [htake]
          simp
        · simp [replaceFirstL, hp]
      · simp only [containsL, Bool.or_eq_true] at h
        rcases h with h | h
        · exact absurd h hp
        · obtain ⟨pre, post, hsp, hr⟩ := ih h
          refine ⟨c :: pre, post, by simp [hsp, List.append_assoc], ?_⟩
          simp [replaceFirstL, hp, hr]

/-! ## Helper lemmas: header construction and request building -/

/-- A caller pair is rejected when its name or value is invalid. -/
def invalidPair (p : String × String) : Prop :=
  headerNameFromBytes p.1 = none ∨ parseHeaderValue p.2 = none

instance (p : String × String) : Decidable (invalidPair p) := by
  unfold invalidPair
  infer_instance

/-- One invalid pair anywhere makes the conversion fail. -/
theorem toHeadersAuxError (l : List (String × String)) (acc : List (String × String))
    (hbad : ∃ p ∈ l, invalidPair p) :
    to_headersAux acc l = .error "invalid header name or value" := by
  induction l generalizing acc with
  | nil => simp at hbad
  | cons q rest ih =>
      obtain ⟨p, hp, hpbad⟩ := hbad
      cases q with
      | mk k v =>
          cases hk : headerNameFromBytes k with
          | none => simp [to_headersAux, hk]
          | some k2 =>
              cases hv : parseHeaderValue v with
              | none => simp [to_headersAux, hk, hv]
              | some v2 =>
                  simp only [to_headersAux, hk, hv]
                  rcases List.mem_cons.mp hp with hh | ht
                  · rw [hh] at hpbad
                    unfold invalidPair at hpbad
                    simp only at hpbad
                    rcases hpbad with hc | hc
                    · rw [hk] at hc
                      exact absurd hc (by simp)
                    · rw [hv] at hc
                      exact absurd hc (by simp)
                  · exact ih _ ⟨p, ht, hpbad⟩

/-- All-valid pairs convert successfully. -/
theorem toHeadersAuxOk (l : List (String × String)) (acc : List (String × String))
    (hgood : ∀ p ∈ l, ¬ invalidPair p) :
    ∃ hs, to_headersAux acc l = .ok hs := by
  induction l generalizing acc with
  | nil => exact ⟨acc, rfl⟩
  | cons q rest ih =>
      cases q with
      | mk k v =>
          have hq := hgood (k, v) (List.mem_cons_self _ _)
          unfold invalidPair at hq
          push_neg at hq
          cases hk : headerNameFromBytes k with
          | none => exact absurd hk hq.1
          | some k2 =>
              cases hv : parseHeaderValue v with
              | none => exact absurd hv hq.2
              | some v2 =>
                  simp only [to_headersAux, hk, hv]
                  exact ih _ fun p hp => hgood p (List.mem_cons_of_mem _ hp)

/-- A successful `parseHeaderValue` only ever returns its input. -/
theorem parseHeaderValueEq (s v : String) (h : parseHeaderValue s = some v) : v = s := by
  unfold parseHeaderValue at h
  by_cases hall : s.data.all validHeaderValueChar = true
  · rw [if_pos hall] at h
    exact (Option.some.injEq _ _ ▸ h).symm
  · rw [if_neg hall] at h
    exact absurd h (by simp)

/-- A `build_request` with a failing header conversion returns exactly that
error: the failure happens before the signer runs. -/
theorem buildRequestErrOfToHeaders (cfg : OSS) (date : String) (rt : RequestType)
    (obj : String) (h : List (String × String))
    (res : Option (List (String × Option String))) (e : String)
    (hth : to_headers h = .error e) :
    build_request cfg date rt obj (some h) res = .error e := by
  unfold build_request
  rw [show (match some h with
      | some h => to_headers h
      | none => (.ok [] : Except String (List (String × String)))) = to_headers h from rfl]
  rw [hth]

/-- The shape of a `build_request` run once the header conversion has
succeeded. -/
theorem buildRequestEq (cfg : OSS) (date : String) (rt : RequestType)
    (obj : String) (h : List (String × String))
    (res : Option (List (String × Option String))) (hs : List (String × String))
    (hth : to_headers h = .ok hs) :
    build_request cfg date rt obj (some h) res =
      match parseHeaderValue date with
      | none => .error "invalid date value"
      | some dv =>
          match parseHeaderValue (oss_sign rt.asStr cfg.key_id cfg.key_secret cfg.bucket
              obj (resourcesStrOpt res) (hmInsert hs "date" dv)) with
          | none => .error "invalid authorization value"
          | some av => .ok (host cfg cfg.bucket obj (paramsStrOpt res),
              hmInsert (hmInsert hs "date" dv) "authorization" av) := by
  unfold build_request
  rw [show (match some h with
      | some h => to_headers h
      | none => (.ok [] : Except String (List (String × String)))) = to_headers h from rfl]
  rw [hth]

/-- The build fails when the date value cannot be a header value. -/
theorem buildRequestErrDate (cfg : OSS) (date : String) (rt : RequestType)
    (obj : String) (h : List (String × String))
    (res : Option (List (String × Option String))) (hs : List (String × String))
    (hth : to_headers h = .ok hs) (hd : parseHeaderValue date = none) :
    build_request cfg date rt obj (some h) res = .error "invalid date value" := by
  simp only [buildRequestEq cfg date rt obj h res hs hth, hd]

/-- The build fails when the authorization value cannot be a header
value. -/
theorem buildRequestErrAuth (cfg : OSS) (date : String) (rt : RequestType)
    (obj : String) (h : List (String × String))
    (res : Option (List (String × Option String))) (hs : List (String × String))
    (dv : String) (hth : to_headers h = .ok hs)
    (hd : parseHeaderValue date = some dv)
    (ha : parseHeaderValue (oss_sign rt.asStr cfg.key_id cfg.key_secret cfg.bucket
      obj (resourcesStrOpt res) (hmInsert hs "date" dv)) = none) :
    build_request cfg date rt obj (some h) res =
      .error "invalid authorization value" := by
  simp only [buildRequestEq cfg date rt obj h res hs hth, hd, ha]

/-- The value of a fully successful `build_request`. -/
theorem buildRequestOkEq (cfg : OSS) (date : String) (rt : RequestType)
    (obj : String) (h : List (String × String))
    (res : Option (List (String × Option String))) (hs : List (String × String))
    (dv av : String) (hth : to_headers h = .ok hs)
    (hd : parseHeaderValue date = some dv)
    (ha : parseHeaderValue (oss_sign rt.asStr cfg.key_id cfg.key_secret cfg.bucket
      obj (resourcesStrOpt res) (hmInsert hs "date" dv)) = some av) :
    build_request cfg date rt obj (some h) res =
      .ok (host cfg cfg.bucket obj (paramsStrOpt res),
        hmInsert (hmInsert hs "date" dv) "authorization" av) := by
  simp only [buildRequestEq cfg date rt obj h res hs hth, hd, ha]

/-! ## Claim theorems -/

/-- The signing string written out as the spec describes it: used to
compare `oss_sign` against the wire-level format. -/
theorem stringToSignEq (verb bucket object oss_resources : String)
    (headers : List (String × String)) :
    string_to_sign verb bucket object oss_resources headers =
      verb ++ "\n" ++
      ((getHeader headers "content-md5").map fun v =>
        base64encode (utf8Bytes (headerValueToStr v))).getD "" ++
      "\n" ++ ((getHeader headers "content-type").map headerValueToStr).getD "" ++ "\n" ++
      ((getHeader headers "date").map headerValueToStr).getD "" ++ "\n" ++
      String.join ((sortByKey (ossVendorHeaders headers)).map
        fun p => p.1 ++ ":" ++ headerValueToStr p.2 ++ "\n") ++
      get_oss_resource_str bucket object oss_resources := by
  unfold string_to_sign oss_headers_str
  rw [foldlRenderEq, String.empty_append]

/-- Claim C1, counterexample: a header value with a character above 127
passes `HeaderValue::from_str` and so reaches the signer through
`to_headers`, but `to_str` cannot render it, so auth.rs line 38 signs the
empty string where the claim asserts the stored Date value verbatim: at
this input (no vendor headers, so the sorted vendor list is forced to be
empty) the signed output differs from the claim's formula. -/
theorem oss_sign_verbatim_value_counterexample :
    parseHeaderValue "é" = some "é" ∧
    getHeader [("date", "é")] "date" = some "é" ∧
    ([("date", "é")].filter fun p => strContains p.1 "x-oss-") = [] ∧
    string_to_sign "GET" "b" "o" "" [("date", "é")] =
      "GET" ++ "\n" ++ "" ++ "\n" ++ "" ++ "\n" ++ "" ++ "\n" ++ "" ++
        get_oss_resource_str "b" "o" "" ∧
    oss_sign "GET" "kid" "ks" "b" "o" "" [("date", "é")] ≠
      "OSS " ++ "kid" ++ ":" ++
        base64encode (hmacSha1 (utf8Bytes "ks") (utf8Bytes
          ("GET" ++ "\n" ++ "" ++ "\n" ++ "" ++ "\n" ++ "é" ++ "\n" ++
           String.join (([] : List (String × String)).map
             fun p => p.1 ++ ":" ++ p.2 ++ "\n") ++
           get_oss_resource_str "b" "o" ""))) := by
  refine ⟨rfl, by decide, by decide, by decide, by decide⟩

/-- Claim C1 as amended: for every verb, key id, secret key, bucket,
object, signable resource string and header map, `oss_sign` returns
`"OSS " ++ key_id ++ ":" ++ Base64(HMAC-SHA1(secret, StringToSign))`,
where StringToSign is the verb, the Content-MD5 line, the Content-Type
value and the Date value each followed by one newline — every value read
through the `to_str` rendering: a value whose characters are all visible
ASCII (or tab) contributes itself, any other value contributes the empty
string, as does an absent header — then the vendor-header lines rendered
as `name:to_str(value)\n` sorted ascending by header name, then
immediately the canonical resource with no separator. -/
theorem oss_sign_wire_format (verb key_id key_secret bucket object oss_resources : String)
    (headers : List (String × String)) :
    ∃ hs : List (String × String),
      hs.Perm (headers.filter fun p => strContains p.1 "x-oss-") ∧
      hs.Pairwise (fun a b => strLe a.1 b.1 = true) ∧
      oss_sign verb key_id key_secret bucket object oss_resources headers =
        "OSS " ++ key_id ++ ":" ++
          base64encode (hmacSha1 (utf8Bytes key_secret) (utf8Bytes
            (verb ++ "\n" ++
             ((getHeader headers "content-md5").map fun v =>
               base64encode (utf8Bytes (headerValueToStr v))).getD "" ++ "\n" ++
             ((getHeader headers "content-type").map headerValueToStr).getD "" ++ "\n" ++
             ((getHeader headers "date").map headerValueToStr).getD "" ++ "\n" ++
             String.join (hs.map fun p => p.1 ++ ":" ++ headerValueToStr p.2 ++ "\n") ++
             get_oss_resource_str bucket object oss_resources))) := by
  refine ⟨sortByKey (ossVendorHeaders headers), sortByKeyPerm _, ?_, ?_⟩
  · exact (sortByKeySorted (ossVendorHeaders headers)).imp fun h => h
  · unfold oss_sign
    rw [stringToSignEq]

/-- Claim C2, counterexample: with a non-empty bucket and an empty object
the canonical resource keeps a trailing slash, `"/b/"`, not the `"/b"` the
claim states. -/
theorem get_oss_resource_str_counterexample :
    get_oss_resource_str "b" "" "" = "/b/" ∧ get_oss_resource_str "b" "" "" ≠ "/b" := by
  constructor
  · decide
  · decide

/-- Claim C2 as amended: the canonical resource is `/bucket/object` for a
non-empty bucket (so `/bucket/` — trailing slash retained — when the object
is empty), `/` alone for an empty bucket, suffixed with `?` and the
signable string exactly when that string is non-empty; in particular
`("b", "o", "acl")` gives `"/b/o?acl"` and an empty bucket gives `"/"`. -/
theorem get_oss_resource_str_spec (bucket object s : String) :
    (get_oss_resource_str bucket object s =
      (if bucket = "" then "/" else "/" ++ bucket ++ "/" ++ object) ++
      (if s = "" then "" else "?" ++ s)) ∧
    get_oss_resource_str "b" "o" "acl" = "/b/o?acl" ∧
    get_oss_resource_str "" "" "" = "/" := by
  refine ⟨?_, by decide, by decide⟩
  unfold get_oss_resource_str
  by_cases hb : bucket = "" <;> by_cases hs : s = "" <;>
    simp [hb, hs, String.append_empty, String.append_assoc]

/-- Claim C3: a parameter whose key is outside the `RESOURCES` allow-list
occurs verbatim in the query string, is absent from the entries serialized
into the signable resource string, and removing it from the map leaves the
signable resource string unchanged — it never affects the signature. -/
theorem non_allowlisted_param_filtered (l : List (String × Option String))
    (k : String) (v : Option String) (hmem : (k, v) ∈ l) (hk : k ∉ RESOURCES) :
    (∃ s1 s2, get_params_str l = s1 ++ (k ++ s2)) ∧
    (∀ p ∈ sortByKey (l.filter fun p => RESOURCES.contains p.1), p.1 ≠ k) ∧
    get_resources_str l = get_resources_str (l.filter fun p => p.1 ≠ k) := by
  refine ⟨?_, ?_, ?_⟩
  · unfold get_params_str
    exact renderParamsMemSubstr (sortByKey l) k v ((sortByKeyPerm l).mem_iff.mpr hmem)
  · intro p hp hpk
    have hpf : p ∈ l.filter fun p => RESOURCES.contains p.1 :=
      (sortByKeyPerm _).mem_iff.mp hp
    have hcontains : RESOURCES.contains p.1 = true := (List.mem_filter.mp hpf).2
    have : p.1 ∈ RESOURCES := List.elem_iff.mp hcontains
    exact hk (hpk ▸ this)
  · unfold get_resources_str
    have hfil : (l.filter fun p => p.1 ≠ k).filter (fun p => RESOURCES.contains p.1) =
        l.filter fun p => RESOURCES.contains p.1 := by
      rw [List.filter_filter]
      apply List.filter_congr
      intro p _
      cases hc : RESOURCES.contains p.1 with
      | false => simp
      | true =>
          have hpr : p.1 ∈ RESOURCES := List.elem_iff.mp hc
          have hne : p.1 ≠ k := fun he => hk (he ▸ hpr)
          simp [hne]
    rw [hfil]

/-- Witness for C3 at a concrete map: `max-keys` is not allow-listed. -/
theorem non_allowlisted_param_filtered_witness :
    (("max-keys", some "5") ∈ [("max-keys", (some "5" : Option String)), ("acl", none)]) ∧
    ("max-keys" ∉ RESOURCES) ∧
    ((∃ s1 s2, get_params_str [("max-keys", some "5"), ("acl", none)] = s1 ++ ("max-keys" ++ s2)) ∧
     (∀ p ∈ sortByKey ([("max-keys", (some "5" : Option String)), ("acl", none)].filter
        fun p => RESOURCES.contains p.1), p.1 ≠ "max-keys") ∧
     get_resources_str [("max-keys", some "5"), ("acl", none)] =
       get_resources_str ([("max-keys", some "5"), ("acl", none)].filter
         fun p => p.1 ≠ "max-keys")) :=
  ⟨by decide, by decide,
    non_allowlisted_param_filtered _ "max-keys" (some "5") (by decide) (by decide)⟩

/-- Claim C4: two parameter maps equal as sets of pairs (with distinct
keys) serialize to identical resource and query strings, and two header
maps equal as sets render identical vendor-header blocks and identical
signatures: insertion order never changes the signature. -/
theorem sign_insertion_order_invariant
    (p1 p2 : List (String × Option String)) (h1 h2 : List (String × String))
    (verb kid ks bucket object res : String)
    (hpp : p1.Perm p2) (hpn : p1.Pairwise fun a b => a.1 ≠ b.1)
    (hhp : h1.Perm h2) (hhn : h1.Pairwise fun a b => a.1 ≠ b.1) :
    get_resources_str p1 = get_resources_str p2 ∧
    get_params_str p1 = get_params_str p2 ∧
    oss_headers_str h1 = oss_headers_str h2 ∧
    oss_sign verb kid ks bucket object res h1 =
      oss_sign verb kid ks bucket object res h2 := by
  have hsortp : sortByKey p1 = sortByKey p2 := sortByKeyEqOfPerm p1 p2 hpp hpn
  have hsortf : sortByKey (p1.filter fun p => RESOURCES.contains p.1) =
      sortByKey (p2.filter fun p => RESOURCES.contains p.1) :=
    sortByKeyEqOfPerm _ _ (hpp.filter _)
      (List.Pairwise.sublist (List.filter_sublist p1) hpn)
  have hsorth : sortByKey (ossVendorHeaders h1) = sortByKey (ossVendorHeaders h2) :=
    sortByKeyEqOfPerm _ _ (hhp.filter _)
      (List.Pairwise.sublist (List.filter_sublist h1) hhn)
  have hoss : oss_headers_str h1 = oss_headers_str h2 := by
    unfold oss_headers_str
    rw [hsorth]
  refine ⟨?_, ?_, hoss, ?_⟩
  · unfold get_resources_str
    rw [hsortf]
  · unfold get_params_str
    rw [hsortp]
  · unfold oss_sign string_to_sign
    rw [hoss, getHeaderEqOfPerm h1 h2 hhp hhn "date",
      getHeaderEqOfPerm h1 h2 hhp hhn "content-type",
      getHeaderEqOfPerm h1 h2 hhp hhn "content-md5"]

/-- Witness for C4 at concrete permuted maps. -/
theorem sign_insertion_order_invariant_witness :
    ([("uploads", (some "1" : Option String)), ("acl", none)].Perm
      [("acl", none), ("uploads", some "1")]) ∧
    ([("uploads", (some "1" : Option String)), ("acl", none)].Pairwise
      fun a b => a.1 ≠ b.1) ∧
    ([("x-oss-b", "2"), ("x-oss-a", "1")].Perm [("x-oss-a", "1"), ("x-oss-b", "2")]) ∧
    ([("x-oss-b", "2"), ("x-oss-a", "1")].Pairwise fun a b => a.1 ≠ b.1) ∧
    (get_resources_str [("uploads", some "1"), ("acl", none)] =
      get_resources_str [("acl", none), ("uploads", some "1")] ∧
     get_params_str [("uploads", some "1"), ("acl", none)] =
      get_params_str [("acl", none), ("uploads", some "1")] ∧
     oss_headers_str [("x-oss-b", "2"), ("x-oss-a", "1")] =
      oss_headers_str [("x-oss-a", "1"), ("x-oss-b", "2")] ∧
     oss_sign "GET" "kid" "ks" "b" "o" "acl" [("x-oss-b", "2"), ("x-oss-a", "1")] =
      oss_sign "GET" "kid" "ks" "b" "o" "acl" [("x-oss-a", "1"), ("x-oss-b", "2")]) :=
  ⟨by decide, by decide, by decide, by decide,
    sign_insertion_order_invariant _ _ _ _ "GET" "kid" "ks" "b" "o" "acl"
      (by decide) (by decide) (by decide) (by decide)⟩

/-- Rendering keeps a visible-ASCII value. -/
theorem headerValueToStrValid (v : String) (h : v.data.all visibleAsciiChar = true) :
    headerValueToStr v = v := by
  unfold headerValueToStr
  rw [if_pos h]

/-- Rendering collapses a non-renderable value to the empty string. -/
theorem headerValueToStrInvalid (v : String) (h : v.data.all visibleAsciiChar = false) :
    headerValueToStr v = "" := by
  unfold headerValueToStr
  rw [if_neg (by simp [h])]

/-- Claim C5, counterexample: the value `"é"` passes `HeaderValue::from_str`
(so it reaches the signer), but `to_str` cannot render it, so the program
base64-encodes the empty fallback and the Content-MD5 position is `""`,
not the `Base64("é")` the claim asserts. -/
theorem content_md5_counterexample :
    parseHeaderValue "é" = some "é" ∧
    getHeader [("content-md5", "é")] "content-md5" = some "é" ∧
    string_to_sign "GET" "b" "o" "" [("content-md5", "é")] =
      "GET" ++ "\n" ++ "" ++ "\n" ++ "" ++ "\n" ++ "" ++ "\n" ++ "" ++
        get_oss_resource_str "b" "o" "" ∧
    base64encode (utf8Bytes "é") ≠ "" := by
  refine ⟨rfl, by decide, by decide, by decide⟩

/-- Claim C5 as amended: when a `Content-MD5` header is present with a
value `v` that `to_str` can render (every character visible ASCII or tab),
the Content-MD5 position of the string-to-sign holds `Base64(v)` — the
deliberate re-encoding of the raw header string value; when the present
value is not renderable the `unwrap_or_default` fallback is encoded and
the position is the empty string, and when the header is absent the
position is the empty string. -/
theorem content_md5_position (verb bucket object res : String)
    (headers : List (String × String)) :
    (∀ v, getHeader headers "content-md5" = some v →
      v.data.all visibleAsciiChar = true →
      string_to_sign verb bucket object res headers =
        verb ++ "\n" ++ base64encode (utf8Bytes v) ++ "\n" ++
        ((getHeader headers "content-type").map headerValueToStr).getD "" ++ "\n" ++
        ((getHeader headers "date").map headerValueToStr).getD "" ++ "\n" ++
        oss_headers_str headers ++ get_oss_resource_str bucket object res) ∧
    (∀ v, getHeader headers "content-md5" = some v →
      v.data.all visibleAsciiChar = false →
      string_to_sign verb bucket object res headers =
        verb ++ "\n" ++ "" ++ "\n" ++
        ((getHeader headers "content-type").map headerValueToStr).getD "" ++ "\n" ++
        ((getHeader headers "date").map headerValueToStr).getD "" ++ "\n" ++
        oss_headers_str headers ++ get_oss_resource_str bucket object res) ∧
    (getHeader headers "content-md5" = none →
      string_to_sign verb bucket object res headers =
        verb ++ "\n" ++ "" ++ "\n" ++
        ((getHeader headers "content-type").map headerValueToStr).getD "" ++ "\n" ++
        ((getHeader headers "date").map headerValueToStr).getD "" ++ "\n" ++
        oss_headers_str headers ++ get_oss_resource_str bucket object res) := by
  refine ⟨?_, ?_, ?_⟩
  · intro v hv hvalid
    unfold string_to_sign
    rw [hv]
    show verb ++ "\n" ++ base64encode (utf8Bytes (headerValueToStr v)) ++ "\n" ++ _ ++
      "\n" ++ _ ++ "\n" ++ oss_headers_str headers ++
      get_oss_resource_str bucket object res = _
    rw [headerValueToStrValid v hvalid]
  · intro v hv hvalid
    unfold string_to_sign
    rw [hv]
    show verb ++ "\n" ++ base64encode (utf8Bytes (headerValueToStr v)) ++ "\n" ++ _ ++
      "\n" ++ _ ++ "\n" ++ oss_headers_str headers ++
      get_oss_resource_str bucket object res = _
    rw [headerValueToStrInvalid v hvalid]
    rfl
  · intro hv
    unfold string_to_sign
    rw [hv]
    rfl

/-- Witness for the amended C5: a renderable value is re-encoded, a
non-renderable one and an absent one contribute the empty string. -/
theorem content_md5_position_witness :
    (getHeader [("content-md5", "x")] "content-md5" = some "x" ∧
     ("x" : String).data.all visibleAsciiChar = true ∧
     string_to_sign "GET" "b" "o" "" [("content-md5", "x")] =
       "GET" ++ "\n" ++ base64encode (utf8Bytes "x") ++ "\n" ++
       ((getHeader [("content-md5", "x")] "content-type").map headerValueToStr).getD "" ++
       "\n" ++
       ((getHeader [("content-md5", "x")] "date").map headerValueToStr).getD "" ++ "\n" ++
       oss_headers_str [("content-md5", "x")] ++ get_oss_resource_str "b" "o" "") ∧
    (getHeader [("content-md5", "é")] "content-md5" = some "é" ∧
     ("é" : String).data.all visibleAsciiChar = false ∧
     string_to_sign "GET" "b" "o" "" [("content-md5", "é")] =
       "GET" ++ "\n" ++ "" ++ "\n" ++
       ((getHeader [("content-md5", "é")] "content-type").map headerValueToStr).getD "" ++
       "\n" ++
       ((getHeader [("content-md5", "é")] "date").map headerValueToStr).getD "" ++ "\n" ++
       oss_headers_str [("content-md5", "é")] ++ get_oss_resource_str "b" "o" "") ∧
    (getHeader [] "content-md5" = none ∧
     string_to_sign "GET" "b" "o" "" [] =
       "GET" ++ "\n" ++ "" ++ "\n" ++
       ((getHeader [] "content-type").map headerValueToStr).getD "" ++ "\n" ++
       ((getHeader [] "date").map headerValueToStr).getD "" ++ "\n" ++
       oss_headers_str [] ++ get_oss_resource_str "b" "o" "") :=
  ⟨⟨by decide, by decide,
    (content_md5_position "GET" "b" "o" "" [("content-md5", "x")]).1 "x"
      (by decide) (by decide)⟩,
   ⟨by decide, by decide,
    (content_md5_position "GET" "b" "o" "" [("content-md5", "é")]).2.1 "é"
      (by decide) (by decide)⟩,
   ⟨by decide, (content_md5_position "GET" "b" "o" "" []).2.2 (by decide)⟩⟩

/-- Claim C6, counterexample: `replacen(_, _, 1)` removes the first
occurrence of the scheme string anywhere in the endpoint, not only a
prefix: endpoint `"my.http://weird"` carries no scheme prefix, yet `host`
removes its interior `http://` instead of keeping the endpoint whole under
an assumed `http://`, as the claim asserts. -/
theorem host_scheme_counterexample :
    strStartsWith "my.http://weird" "http://" = false ∧
    strStartsWith "my.http://weird" "https" = false ∧
    host ⟨"k", "s", "my.http://weird", "bk"⟩ "b" "o" "q" = "http://b.my.weird/o?q" ∧
    host ⟨"k", "s", "my.http://weird", "bk"⟩ "b" "o" "q" ≠
      "http://" ++ "b" ++ "." ++ "my.http://weird" ++ "/" ++ "o" ++ "?" ++ "q" := by
  refine ⟨by decide, by decide, by decide, by decide⟩

/-- Claim C6 as amended: `host` produces
`{scheme}://{bucket}.{endpoint with the first occurrence of the scheme
string removed, if any}/{object}?{query}`, choosing `https` exactly when
the endpoint starts with `"https"` and `http` otherwise.  `replacen`
removes at most the first occurrence of `{scheme}://` anywhere in the
endpoint: an endpoint carrying the scheme prefix at the front has exactly
that prefix stripped, an endpoint with no occurrence of `http://` at all
is kept whole under an assumed `http://`, and an endpoint with an interior
occurrence has that occurrence removed; the spec's concrete example
follows. -/
theorem host_scheme_spec (cfg : OSS) (b o q : String) :
    (host cfg b o q =
      if strStartsWith cfg.endpoint "https" then
        "https://" ++ b ++ "." ++ strReplacen1 cfg.endpoint "https://" "" ++ "/" ++
          o ++ "?" ++ q
      else
        "http://" ++ b ++ "." ++ strReplacen1 cfg.endpoint "http://" "" ++ "/" ++
          o ++ "?" ++ q) ∧
    (strStartsWith cfg.endpoint "https://" = true →
      host cfg b o q =
        "https://" ++ b ++ "." ++ strDrop cfg.endpoint 8 ++ "/" ++ o ++ "?" ++ q) ∧
    (strStartsWith cfg.endpoint "http://" = true →
      host cfg b o q =
        "http://" ++ b ++ "." ++ strDrop cfg.endpoint 7 ++ "/" ++ o ++ "?" ++ q) ∧
    (strStartsWith cfg.endpoint "https" = false →
      strContains cfg.endpoint "http://" = false →
      host cfg b o q = "http://" ++ b ++ "." ++ cfg.endpoint ++ "/" ++ o ++ "?" ++ q) ∧
    (strStartsWith cfg.endpoint "https" = false →
      strContains cfg.endpoint "http://" = true →
      ∃ pre post : List Char,
        cfg.endpoint.data = pre ++ "http://".data ++ post ∧
        host cfg b o q =
          "http://" ++ b ++ "." ++ (⟨pre ++ post⟩ : String) ++ "/" ++ o ++ "?" ++ q) ∧
    (host ⟨"k", "s", "https://oss.example.com", "bk"⟩
        "mybucket" "file.txt" q = "https://mybucket.oss.example.com/file.txt?" ++ q) := by
  refine ⟨rfl, ?_, ?_, ?_, ?_, ?_⟩
  · intro h
    have h5 : strStartsWith cfg.endpoint "https" = true :=
      isPrefixTrans _ _ _ (by decide) h
    have hrep : strReplacen1 cfg.endpoint "https://" "" = strDrop cfg.endpoint 8 := by
      unfold strReplacen1 strDrop
      rw [replaceFirstAtFront _ _ _ h]
      simp
    unfold host
    rw [if_pos h5, hrep]
  · intro h
    have hns : strStartsWith cfg.endpoint "https" = false := by
      by_contra hc
      have hc2 : strStartsWith cfg.endpoint "https" = true := by
        cases hb : strStartsWith cfg.endpoint "https" with
        | true => rfl
        | false => exact absurd hb hc
      have t1 : cfg.endpoint.data.take 7 = "http://".data :=
        (isPrefixTakeIff _ _).mp h
      have t2 : cfg.endpoint.data.take 5 = "https".data :=
        (isPrefixTakeIff _ _).mp hc2
      have t3 : cfg.endpoint.data.take 5 = (cfg.endpoint.data.take 7).take 5 := by
        rw [List.take_take]
        norm_num
      rw [t1] at t3
      rw [t2] at t3
      exact absurd t3 (by decide)
    have hrep : strReplacen1 cfg.endpoint "http://" "" = strDrop cfg.endpoint 7 := by
      unfold strReplacen1 strDrop
      rw [replaceFirstAtFront _ _ _ h]
      simp
    unfold host
    rw [if_neg (by simp [hns]), hrep]
  · intro hns hnc
    have hrep : strReplacen1 cfg.endpoint "http://" "" = cfg.endpoint := by
      unfold strReplacen1
      rw [replaceFirstOfNotContains _ _ _ hnc]
    unfold host
    rw [if_neg (by simp [hns]), hrep]
  · intro hns hc
    obtain ⟨pre, post, hsp, hr⟩ :=
      replaceFirstSplit "http://".data ("" : String).data cfg.endpoint.data hc
    have hrep : strReplacen1 cfg.endpoint "http://" "" = (⟨pre ++ post⟩ : String) := by
      unfold strReplacen1
      rw [hr]
      simp
    refine ⟨pre, post, hsp, ?_⟩
    unfold host
    rw [if_neg (by simp [hns]), hrep]
  · unfold host
    rw [if_pos (by decide)]
    exact congrArg (fun s => s ++ q)
      (by decide :
        ("https://" ++ "mybucket" ++ "." ++
          strReplacen1 "https://oss.example.com" "https://" "" ++ "/" ++ "file.txt" ++ "?") =
        "https://mybucket.oss.example.com/file.txt?")

/-- Witness for the amended C6 at concrete endpoints: scheme prefixes
stripped, a scheme-less endpoint kept whole, an interior occurrence
removed. -/
theorem host_scheme_spec_witness :
    (strStartsWith "https://u" "https://" = true ∧
      host ⟨"k", "s", "https://u", "bk"⟩ "b" "o" "p" =
        "https://" ++ "b" ++ "." ++ strDrop "https://u" 8 ++ "/" ++ "o" ++ "?" ++ "p") ∧
    (strStartsWith "http://u" "http://" = true ∧
      host ⟨"k", "s", "http://u", "bk"⟩ "b" "o" "p" =
        "http://" ++ "b" ++ "." ++ strDrop "http://u" 7 ++ "/" ++ "o" ++ "?" ++ "p") ∧
    (strStartsWith "u.example.com" "https" = false ∧
      strContains "u.example.com" "http://" = false ∧
      host ⟨"k", "s", "u.example.com", "bk"⟩ "b" "o" "p" =
        "http://" ++ "b" ++ "." ++ "u.example.com" ++ "/" ++ "o" ++ "?" ++ "p") ∧
    (strStartsWith "my.http://weird" "https" = false ∧
      strContains "my.http://weird" "http://" = true ∧
      ∃ pre post : List Char,
        ("my.http://weird" : String).data = pre ++ "http://".data ++ post ∧
        host ⟨"k", "s", "my.http://weird", "bk"⟩ "b" "o" "p" =
          "http://" ++ "b" ++ "." ++ (⟨pre ++ post⟩ : String) ++ "/" ++ "o" ++ "?" ++ "p") :=
  ⟨⟨by decide, (host_scheme_spec ⟨"k", "s", "https://u", "bk"⟩ "b" "o" "p").2.1 (by decide)⟩,
   ⟨by decide, (host_scheme_spec ⟨"k", "s", "http://u", "bk"⟩ "b" "o" "p").2.2.1 (by decide)⟩,
   ⟨by decide, by decide,
     (host_scheme_spec ⟨"k", "s", "u.example.com", "bk"⟩ "b" "o" "p").2.2.2.1
       (by decide) (by decide)⟩,
   ⟨by decide, by decide,
     (host_scheme_spec ⟨"k", "s", "my.http://weird", "bk"⟩ "b" "o" "p").2.2.2.2.1
       (by decide) (by decide)⟩⟩

/-- Claim C7: a caller header map containing a name or value no HTTP
header can represent makes `to_headers` — and hence `build_request`, with
that very error, before the signer ever runs — fail; a map whose names and
values are all representable converts successfully. -/
theorem build_request_header_validation (cfg : OSS) (date : String)
    (rt : RequestType) (obj : String) (res : Option (List (String × Option String)))
    (l : List (String × String)) :
    ((∃ p ∈ l, invalidPair p) →
      to_headers l = .error "invalid header name or value" ∧
      build_request cfg date rt obj (some l) res =
        .error "invalid header name or value") ∧
    ((∀ p ∈ l, ¬ invalidPair p) → ∃ hs, to_headers l = .ok hs) := by
  constructor
  · intro hbad
    have he : to_headers l = .error "invalid header name or value" :=
      toHeadersAuxError l [] hbad
    exact ⟨he, buildRequestErrOfToHeaders cfg date rt obj l res _ he⟩
  · intro hgood
    exact toHeadersAuxOk l [] hgood

/-- Witness for C7: a name with a space is rejected before signing, a
valid map converts. -/
theorem build_request_header_validation_witness :
    ((∃ p ∈ [("bad name", "v")], invalidPair p) ∧
     to_headers [("bad name", "v")] = .error "invalid header name or value" ∧
     build_request ⟨"k", "s", "http://e", "b"⟩ "D" .Get "o"
       (some [("bad name", "v")]) none = .error "invalid header name or value") ∧
    ((∀ p ∈ [("x-oss-meta", "ok")], ¬ invalidPair p) ∧
     ∃ hs, to_headers [("x-oss-meta", "ok")] = .ok hs) :=
  ⟨⟨by decide,
    (build_request_header_validation ⟨"k", "s", "http://e", "b"⟩ "D" .Get "o" none
      [("bad name", "v")]).1 (by decide)⟩,
   ⟨by decide,
    (build_request_header_validation ⟨"k", "s", "http://e", "b"⟩ "D" .Get "o" none
      [("x-oss-meta", "ok")]).2 (by decide)⟩⟩

/-- Claim C8: a successful `build_request` returns the caller's converted
headers unchanged except `date` and `authorization`: it overwrites `date`
with the freshly formatted time and `authorization` with the signature,
and the signature is computed over the header map holding the generated
date. -/
theorem build_request_frame (cfg : OSS) (date : String) (rt : RequestType)
    (obj : String) (h : List (String × String))
    (res : Option (List (String × Option String)))
    (hok : isOkE (build_request cfg date rt obj (some h) res) = true) :
    ∃ hs out, to_headers h = .ok hs ∧
      build_request cfg date rt obj (some h) res =
        .ok (host cfg cfg.bucket obj (paramsStrOpt res), out) ∧
      out = hmInsert (hmInsert hs "date" date) "authorization"
        (oss_sign rt.asStr cfg.key_id cfg.key_secret cfg.bucket obj
          (resourcesStrOpt res) (hmInsert hs "date" date)) ∧
      (∀ k2, k2 ≠ "date" → k2 ≠ "authorization" →
        getHeader out k2 = getHeader hs k2) ∧
      getHeader out "date" = some date ∧
      getHeader out "authorization" =
        some (oss_sign rt.asStr cfg.key_id cfg.key_secret cfg.bucket obj
          (resourcesStrOpt res) (hmInsert hs "date" date)) ∧
      getHeader (hmInsert hs "date" date) "date" = some date := by
  cases hth : to_headers h with
  | error e =>
      rw [buildRequestErrOfToHeaders cfg date rt obj h res e hth] at hok
      simp [isOkE] at hok
  | ok hs =>
      cases hd : parseHeaderValue date with
      | none =>
          rw [buildRequestErrDate cfg date rt obj h res hs hth hd] at hok
          simp [isOkE] at hok
      | some dv =>
          have hdv := parseHeaderValueEq date dv hd
          rw [hdv] at hd
          cases ha : parseHeaderValue (oss_sign rt.asStr cfg.key_id cfg.key_secret
              cfg.bucket obj (resourcesStrOpt res) (hmInsert hs "date" date)) with
          | none =>
              rw [buildRequestErrAuth cfg date rt obj h res hs date hth hd ha] at hok
              simp [isOkE] at hok
          | some av =>
              have hav := parseHeaderValueEq _ av ha
              rw [hav] at ha
              refine ⟨hs, hmInsert (hmInsert hs "date" date) "authorization"
                (oss_sign rt.asStr cfg.key_id cfg.key_secret cfg.bucket obj
                  (resourcesStrOpt res) (hmInsert hs "date" date)),
                rfl, buildRequestOkEq cfg date rt obj h res hs date _ hth hd ha,
                rfl, ?_, ?_, ?_, ?_⟩
              · intro k2 hkd hka
                rw [getHeaderHmInsertNe _ _ _ _ hka, getHeaderHmInsertNe _ _ _ _ hkd]
              · rw [getHeaderHmInsertNe _ _ _ _ (by decide),
                  getHeaderHmInsertSelf]
              · rw [getHeaderHmInsertSelf]
              · rw [getHeaderHmInsertSelf]

/-- Witness for C8 at a concrete successful build. -/
theorem build_request_frame_witness :
    isOkE (build_request ⟨"kid", "ks", "http://e", "bkt"⟩ "D" .Get "o"
      (some [("content-type", "text")]) none) = true ∧
    (∃ hs out, to_headers [("content-type", "text")] = .ok hs ∧
      build_request ⟨"kid", "ks", "http://e", "bkt"⟩ "D" .Get "o"
          (some [("content-type", "text")]) none =
        .ok (host ⟨"kid", "ks", "http://e", "bkt"⟩ "bkt" "o" (paramsStrOpt none), out) ∧
      out = hmInsert (hmInsert hs "date" "D") "authorization"
        (oss_sign "GET" "kid" "ks" "bkt" "o" (resourcesStrOpt none)
          (hmInsert hs "date" "D")) ∧
      (∀ k2, k2 ≠ "date" → k2 ≠ "authorization" →
        getHeader out k2 = getHeader hs k2) ∧
      getHeader out "date" = some "D" ∧
      getHeader out "authorization" =
        some (oss_sign "GET" "kid" "ks" "bkt" "o" (resourcesStrOpt none)
          (hmInsert hs "date" "D")) ∧
      getHeader (hmInsert hs "date" "D") "date" = some "D") :=
  ⟨by decide,
   build_request_frame ⟨"kid", "ks", "http://e", "bkt"⟩ "D" .Get "o"
     [("content-type", "text")] none (by decide)⟩

/-- The value of a successful `copy_object_from_object` build. -/
theorem copyObjectOkEq (cfg : OSS) (date src obj : String)
    (headers : Option (List (String × String)))
    (res : Option (List (String × Option String)))
    (r : String × List (String × String)) (sv : String)
    (hbr : build_request cfg date .Put obj headers res = .ok r)
    (hsv : parseHeaderValue src = some sv) :
    copy_object_from_object cfg date src obj headers res =
      .ok (r.1, hmInsert r.2 "x-oss-copy-source" sv) := by
  unfold copy_object_from_object
  simp only [hbr, hsv]

/-- Claim C9, counterexample: the claim quantifies over every header map,
but a caller map that itself carries `x-oss-copy-source` reaches the
signer: the converted map contains it, the canonicalized vendor-header
block of the signing set renders it, and the authorization header of the
built copy request is the signature over that very set. -/
theorem copy_source_signed_counterexample :
    to_headers [("x-oss-copy-source", "evil")] = .ok [("x-oss-copy-source", "evil")] ∧
    ("x-oss-copy-source", "evil") ∈ hmInsert [("x-oss-copy-source", "evil")] "date" "D" ∧
    oss_headers_str (hmInsert [("x-oss-copy-source", "evil")] "date" "D") =
      "x-oss-copy-source:evil\n" ∧
    strContains (string_to_sign "PUT" "bkt" "o" ""
      (hmInsert [("x-oss-copy-source", "evil")] "date" "D")) "x-oss-copy-source" = true ∧
    authOf (copy_object_from_object ⟨"kid", "ks", "http://e", "bkt"⟩ "D" "src" "o"
        (some [("x-oss-copy-source", "evil")]) none) =
      some (oss_sign "PUT" "kid" "ks" "bkt" "o" ""
        (hmInsert [("x-oss-copy-source", "evil")] "date" "D")) := by
  refine ⟨rfl, by decide, by decide, by decide, by decide⟩

/-- Claim C9 as amended: provided the caller's converted header map does
not itself contain an `x-oss-copy-source` entry, the header map the
signature is computed over never contains `x-oss-copy-source` — the header
is inserted only after `build_request` has computed and stored the
`authorization` value — yet the outgoing request carries it with the source
as its value. -/
theorem copy_object_signs_without_copy_source (cfg : OSS) (date src obj : String)
    (h : List (String × String)) (res : Option (List (String × Option String)))
    (hs : List (String × String)) (hth : to_headers h = .ok hs)
    (hnosrc : ∀ p ∈ hs, p.1 ≠ "x-oss-copy-source")
    (hok : isOkE (copy_object_from_object cfg date src obj (some h) res) = true) :
    ∃ out,
      copy_object_from_object cfg date src obj (some h) res =
        .ok (host cfg cfg.bucket obj (paramsStrOpt res), out) ∧
      (∀ p ∈ hmInsert hs "date" date, p.1 ≠ "x-oss-copy-source") ∧
      getHeader out "authorization" =
        some (oss_sign "PUT" cfg.key_id cfg.key_secret cfg.bucket obj
          (resourcesStrOpt res) (hmInsert hs "date" date)) ∧
      getHeader out "x-oss-copy-source" = some src := by
  have hsign : ∀ p ∈ hmInsert hs "date" date, p.1 ≠ "x-oss-copy-source" := by
    intro p hp
    rcases hmInsertMem hs "date" date p hp with hin | hdp
    · exact hnosrc p hin
    · rw [hdp]
      exact (by decide : ("date" : String) ≠ "x-oss-copy-source")
  cases hd : parseHeaderValue date with
  | none =>
      have hbe := buildRequestErrDate cfg date .Put obj h res hs hth hd
      unfold copy_object_from_object at hok
      rw [hbe] at hok
      simp [isOkE] at hok
  | some dv =>
      have hdv := parseHeaderValueEq date dv hd
      rw [hdv] at hd
      cases ha : parseHeaderValue (oss_sign RequestType.Put.asStr cfg.key_id
          cfg.key_secret cfg.bucket obj (resourcesStrOpt res)
          (hmInsert hs "date" date)) with
      | none =>
          have hbe := buildRequestErrAuth cfg date .Put obj h res hs date hth hd ha
          unfold copy_object_from_object at hok
          rw [hbe] at hok
          simp [isOkE] at hok
      | some av =>
          have hav := parseHeaderValueEq _ av ha
          rw [hav] at ha
          have hbr := buildRequestOkEq cfg date .Put obj h res hs date _ hth hd ha
          cases hsv : parseHeaderValue src with
          | none =>
              unfold copy_object_from_object at hok
              rw [hbr] at hok
              simp only [hsv] at hok
              simp [isOkE] at hok
          | some sv =>
              have hsveq := parseHeaderValueEq src sv hsv
              rw [hsveq] at hsv
              have hcp := copyObjectOkEq cfg date src obj (some h) res _ src hbr hsv
              refine ⟨_, hcp, hsign, ?_, ?_⟩
              · rw [getHeaderHmInsertNe _ _ _ _ (by decide), getHeaderHmInsertSelf]
                rfl
              · rw [getHeaderHmInsertSelf]

/-- Witness for the amended C9 at a concrete copy request. -/
theorem copy_object_signs_without_copy_source_witness :
    to_headers [("content-type", "t")] = .ok [("content-type", "t")] ∧
    (∀ p ∈ [("content-type", "t")], p.1 ≠ "x-oss-copy-source") ∧
    isOkE (copy_object_from_object ⟨"k", "s", "http://e", "b"⟩ "D" "sb/so" "o"
      (some [("content-type", "t")]) none) = true ∧
    (∃ out,
      copy_object_from_object ⟨"k", "s", "http://e", "b"⟩ "D" "sb/so" "o"
          (some [("content-type", "t")]) none =
        .ok (host ⟨"k", "s", "http://e", "b"⟩ "b" "o" (paramsStrOpt none), out) ∧
      (∀ p ∈ hmInsert [("content-type", "t")] "date" "D", p.1 ≠ "x-oss-copy-source") ∧
      getHeader out "authorization" =
        some (oss_sign "PUT" "k" "s" "b" "o" (resourcesStrOpt none)
          (hmInsert [("content-type", "t")] "date" "D")) ∧
      getHeader out "x-oss-copy-source" = some "sb/so") :=
  ⟨rfl, by decide, by decide,
   copy_object_signs_without_copy_source ⟨"k", "s", "http://e", "b"⟩ "D" "sb/so" "o"
     [("content-type", "t")] none [("content-type", "t")] rfl (by decide)
     (by decide)⟩

/-- The allow-list with its duplicate removed. -/
def RESOURCES_distinct : List String := RESOURCES.dedup

/-- Variant of `get_resources_str` computed against the duplicate-free allow-list. -/
def get_resources_str_distinct (params : List (String × Option String)) : String :=
  renderParams "" (sortByKey (params.filter fun p => RESOURCES_distinct.contains p.1))

/-- Claim C10: the `RESOURCES` array has 50 entries but only 49 distinct
names — `"comp"` occurs twice — and filtering against it coincides with
filtering against the 49-name duplicate-free list, so the duplicate entry
never changes any signable resource string. -/
theorem resources_duplicate_harmless (l : List (String × Option String)) :
    RESOURCES.length = 50 ∧
    RESOURCES_distinct.length = 49 ∧
    RESOURCES.count "comp" = 2 ∧
    RESOURCES_distinct.Nodup ∧
    (∀ s, s ∈ RESOURCES ↔ s ∈ RESOURCES_distinct) ∧
    l.filter (fun p => RESOURCES.contains p.1) =
      l.filter (fun p => RESOURCES_distinct.contains p.1) ∧
    get_resources_str l = get_resources_str_distinct l := by
  have hmem : ∀ s : String, s ∈ RESOURCES ↔ s ∈ RESOURCES_distinct :=
    fun s => List.mem_dedup.symm
  have hfil : l.filter (fun p => RESOURCES.contains p.1) =
      l.filter (fun p => RESOURCES_distinct.contains p.1) := by
    apply List.filter_congr
    intro p _
    cases hc : RESOURCES_distinct.contains p.1 with
    | true =>
        have : p.1 ∈ RESOURCES := (hmem p.1).mpr (List.elem_iff.mp hc)
        exact List.elem_iff.mpr this
    | false =>
        cases hc2 : RESOURCES.contains p.1 with
        | false => rfl
        | true =>
            have hmem2 : p.1 ∈ RESOURCES_distinct := (hmem p.1).mp (List.elem_iff.mp hc2)
            have hcc : RESOURCES_distinct.contains p.1 = true := List.elem_iff.mpr hmem2
            exact absurd (hcc.symm.trans hc) (by decide)
  refine ⟨by decide, by decide, by decide, by decide, hmem, hfil, ?_⟩
  unfold get_resources_str get_resources_str_distinct
  rw [hfil]
